import Mathlib

/-!
Verification of the parallel merge sort of package `srt` (file `sort/srt.go`).

The Go code is embedded shallowly: the mutable slice becomes a `List T`
threaded through the functions, in-place writes `data[k] = v` become
`List.set`, and the two goroutines of `ParallelSort` (which sort the two
disjoint halves `data[:mid]` and `data[mid:]` and are joined before the
merge) become two independent recursive calls whose results are
concatenated and handed to `merge`.  Go's zero value for the element type
is modelled by an `Inhabited` instance.  The `parallelism` budget is a Go
`int`, modelled as `Int` (Go integer division truncates toward zero, as
does `Int`'s `/`).
-/

namespace srt

variable {T : Type*}

/-- Modelled from the spec: Go's `SortBy` delegates to the standard
library's `sort.Slice`, whose source is not part of this repository.  The
spec requires only "an in-place sequential comparator sort" driven by
`less` (stable or unstable).  We model it as insertion sort ordered by the
relation "not greater", i.e. `fun a b => less b a = false`. -/
def SortBy (less : T → T → Bool) (data : List T) : List T :=
  List.insertionSort (fun a b => less b a = false) data

/-- The first loop of Go's `merge`: `for i < mid && j < len(data)`,
taking `temp[i]` when `less(temp[i], temp[j])` and `temp[j]` otherwise,
writing to `data[k]` and advancing the chosen cursor and `k`.
Returns the final `(i, j, k, data)`. -/
def mergeLoop (less : T → T → Bool) (temp : List T) (mid : ℕ) [Inhabited T] :
    ℕ → ℕ → ℕ → List T → ℕ × ℕ × ℕ × List T
  | i, j, k, d =>
    if h : i < mid ∧ j < temp.length then
      if less (temp.getD i default) (temp.getD j default) then
        mergeLoop less temp mid (i + 1) j (k + 1) (d.set k (temp.getD i default))
      else
        mergeLoop less temp mid i (j + 1) (k + 1) (d.set k (temp.getD j default))
    else (i, j, k, d)
termination_by i j _ _ => (mid - i) + (temp.length - j)
decreasing_by
· omega
· omega

/-- A remainder-copy loop `for src < bound { d[k] = temp[src]; src++; k++ }`.
With `bound = mid` this is the second loop of Go's `merge` (left-side
remainder); with `bound = len(temp)` it is the right-side remainder copy
of the reference merge.  Returns the final `(k, d)`. -/
def copyLoop (temp : List T) (bound : ℕ) [Inhabited T] :
    ℕ → ℕ → List T → ℕ × List T
  | src, k, d =>
    if h : src < bound then
      copyLoop temp bound (src + 1) (k + 1) (d.set k (temp.getD src default))
    else (k, d)
termination_by src _ _ => bound - src

/-- Go's `merge(data, mid, less)`: copy `data` into `temp`, run the
two-cursor loop, then copy only the remaining left-side elements
(`for i < mid`).  There is no right-side remainder loop in the source. -/
def merge [Inhabited T] (less : T → T → Bool) (data : List T) (mid : ℕ) : List T :=
  let temp := data
  match mergeLoop less temp mid 0 mid 0 data with
  | (i, _, k, d) => (copyLoop temp mid i k d).2

/-- The reference merge of claim C9: identical to `merge` except that after
the two-cursor loop it also copies the remaining right-side elements
(`for j < len(data)`). -/
def mergeRef [Inhabited T] (less : T → T → Bool) (data : List T) (mid : ℕ) : List T :=
  let temp := data
  match mergeLoop less temp mid 0 mid 0 data with
  | (i, j, k, d) =>
    match copyLoop temp mid i k d with
    | (k2, d2) => (copyLoop temp temp.length j k2 d2).2

/-- Functional form of the merge of two lists, with the same branch
structure as the loop in `merge`: the left front is taken exactly when
`less left right` holds, otherwise the right front (shared ties go right). -/
def mergeTwo (less : T → T → Bool) : List T → List T → List T
  | [], ys => ys
  | x :: xs, [] => x :: xs
  | x :: xs, y :: ys =>
    if less x y then x :: mergeTwo less xs (y :: ys)
    else y :: mergeTwo less (x :: xs) ys
termination_by xs ys => xs.length + ys.length

/-- Go's `ParallelSort(data, less, parallelism)`.  Sequences shorter than 2
are returned as-is; with `parallelism ≤ 1` or fewer than 1000 elements the
sequential `SortBy` is used; otherwise the two halves `data[:mid]` and
`data[mid:]` are sorted (concurrently in Go, joined before the merge) with
budget `parallelism/2` each, and merged at `mid = len(data)/2`. -/
def ParallelSort [Inhabited T] (less : T → T → Bool) (parallelism : Int)
    (data : List T) : List T :=
  if h1 : data.length < 2 then data
  else if h2 : parallelism ≤ 1 ∨ data.length < 1000 then SortBy less data
  else
    merge less
      (ParallelSort less (parallelism / 2) (data.take (data.length / 2)) ++
        ParallelSort less (parallelism / 2) (data.drop (data.length / 2)))
      (data.length / 2)
termination_by data.length
decreasing_by
· simp only [List.length_take]
  omega
· simp only [List.length_drop]
  omega

/-- Go's `IsSorted(data, less)`: scans adjacent pairs and reports `false`
iff some `less(data[i+1], data[i])` holds. -/
def IsSorted (less : T → T → Bool) : List T → Bool
  | [] => true
  | [_] => true
  | a :: b :: l => if less b a then false else IsSorted less (b :: l)

/-- Bounds-checked, fuelled interpreter of the first merge loop: every
slice read and write is guarded by an explicit range check (`none` models
an out-of-bounds panic), and exhausting the fuel (`none`) models
non-termination of the loop. -/
def mergeLoopC [Inhabited T] (less : T → T → Bool) (temp : List T) (mid : ℕ) :
    ℕ → ℕ → ℕ → ℕ → List T → Option (ℕ × ℕ × ℕ × List T)
  | 0, _, _, _, _ => none
  | fuel + 1, i, j, k, d =>
    if i < mid ∧ j < temp.length then
      if i < temp.length ∧ j < temp.length ∧ k < d.length then
        if less (temp.getD i default) (temp.getD j default) then
          mergeLoopC less temp mid fuel (i + 1) j (k + 1) (d.set k (temp.getD i default))
        else mergeLoopC less temp mid fuel i (j + 1) (k + 1) (d.set k (temp.getD j default))
      else none
    else some (i, j, k, d)

/-- Bounds-checked, fuelled interpreter of the remainder-copy loop. -/
def copyLoopC [Inhabited T] (temp : List T) (bound : ℕ) :
    ℕ → ℕ → ℕ → List T → Option (ℕ × List T)
  | 0, _, _, _ => none
  | fuel + 1, src, k, d =>
    if src < bound then
      if src < temp.length ∧ k < d.length then
        copyLoopC temp bound fuel (src + 1) (k + 1) (d.set k (temp.getD src default))
      else none
    else some (k, d)

/-- Bounds-checked, fuelled `merge`: returns `some` result only if both
loops finish within `len(data) + 1` steps with every access in range. -/
def mergeChecked [Inhabited T] (less : T → T → Bool) (data : List T) (mid : ℕ) :
    Option (List T) :=
  (mergeLoopC less data mid (data.length + 1) 0 mid 0 data).bind fun s =>
    (copyLoopC data mid (data.length + 1) s.1 s.2.2.1 s.2.2.2).map fun r => r.2

/-- Fuelled interpreter of `ParallelSort`: the fuel bounds the recursion
depth, `none` models non-termination. -/
def ParallelSortFuel [Inhabited T] (less : T → T → Bool) :
    ℕ → Int → List T → Option (List T)
  | 0, _, _ => none
  | fuel + 1, p, data =>
    if data.length < 2 then some data
    else if p ≤ 1 ∨ data.length < 1000 then some (SortBy less data)
    else
      (ParallelSortFuel less fuel (p / 2) (data.take (data.length / 2))).bind fun L =>
        (ParallelSortFuel less fuel (p / 2) (data.drop (data.length / 2))).bind fun R =>
          some (merge less (L ++ R) (data.length / 2))

/-- The comparator never reports both `less a b` and `less b a`
(asymmetry; part of the spec's "consistent" requirement). -/
abbrev AsymLess (less : T → T → Bool) : Prop :=
  ∀ a b, less a b = true → less b a = false

/-- The non-strict relation `fun a b => less b a = false` induced by the
comparator is transitive (the strict-weak-ordering requirement). -/
abbrev TransNotLess (less : T → T → Bool) : Prop :=
  ∀ a b c, less b a = false → less c b = false → less c a = false

/-- Distinct elements never tie: mutually non-less elements are equal. -/
abbrev AntisymNotLess (less : T → T → Bool) : Prop :=
  ∀ a b, less a b = false → less b a = false → a = b

/-- The everywhere-false comparator: a consistent (strict-weak-ordering)
comparator under which all elements tie. -/
def lessF : Bool → Bool → Bool := fun _ _ => false

/-- A 1000-element sequence of 500 `false`s followed by 500 `true`s; under
`lessF` all its elements tie, so it is (vacuously) sorted. -/
def tiedList : List Bool :=
  List.replicate 500 false ++ List.replicate 500 true

/-! ### List helper lemmas -/

lemma getD_take_of_lt [Inhabited T] (temp : List T) {i mid : ℕ} (hi : i < mid)
    (hm : mid ≤ temp.length) :
    (temp.take mid).drop i = temp.getD i default :: (temp.take mid).drop (i + 1) := by
  have hlen : i < (temp.take mid).length := by
    rw [List.length_take]
    omega
  rw [List.drop_eq_getElem_cons hlen]
  have h2 : i < temp.length := by omega
  rw [List.getD_eq_getElem temp default h2]
  congr 1
  exact List.getElem_take temp

lemma drop_eq_getD_cons [Inhabited T] (temp : List T) {j : ℕ} (hj : j < temp.length) :
    temp.drop j = temp.getD j default :: temp.drop (j + 1) := by
  rw [List.drop_eq_getElem_cons hj, List.getD_eq_getElem temp default hj]

lemma set_take_succ (d : List T) {k : ℕ} (v : T) (hk : k < d.length) :
    (d.set k v).take (k + 1) = d.take k ++ [v] := by
  have hlen : (d.take k).length = k := by
    rw [List.length_take]
    omega
  rw [List.set_eq_take_cons_drop v hk]
  rw [show k + 1 = (d.take k).length + 1 by rw [hlen]]
  rw [List.take_append]
  simp

lemma set_drop_of_lt (d : List T) {k m : ℕ} (v : T) (hm : k < m) :
    (d.set k v).drop m = d.drop m := by
  rw [List.drop_set, if_pos hm]

lemma drop_succ_of_drop_eq {d temp : List T} {k : ℕ} (h : d.drop k = temp.drop k) :
    d.drop (k + 1) = temp.drop (k + 1) := by
  rw [← List.drop_drop 1 k, h, List.drop_drop]

/-! ### Loop characterisations -/

lemma copyLoop_at_bound [Inhabited T] (temp : List T) {bound src : ℕ} (h : bound ≤ src)
    (k : ℕ) (d : List T) :
    copyLoop temp bound src k d = (k, d) := by
  rw [copyLoop, dif_neg (by omega)]

lemma copyLoop_spec [Inhabited T] (temp : List T) {bound : ℕ} (hb : bound ≤ temp.length) :
    ∀ src k d, src ≤ bound → d.length = temp.length → k + (bound - src) ≤ d.length →
      copyLoop temp bound src k d
        = (k + (bound - src),
            d.take k ++ (temp.drop src).take (bound - src) ++ d.drop (k + (bound - src))) := by
  intro src k d
  induction src, k, d using copyLoop.induct temp bound with
  | case1 src k d hlt ih =>
    intro hsb hdl hkb
    have hk : k < d.length := by omega
    have hsn : src < temp.length := by omega
    rw [copyLoop, dif_pos hlt]
    rw [ih (by omega) (by simp [hdl]) (by simp; omega)]
    have h1 : k + 1 + (bound - (src + 1)) = k + (bound - src) := by omega
    rw [h1]
    rw [set_take_succ d _ hk]
    rw [set_drop_of_lt d _ (by omega)]
    rw [drop_eq_getD_cons temp hsn]
    rw [show bound - src = (bound - (src + 1)) + 1 by omega]
    simp [List.append_assoc]
  | case2 src k d hge =>
    intro hsb hdl hkb
    have hsrc : src = bound := by omega
    subst hsrc
    rw [copyLoop_at_bound temp (le_refl _)]
    simp [List.take_append_drop]

lemma mergeTwo_nil_right (less : T → T → Bool) (xs : List T) :
    mergeTwo less xs [] = xs := by
  cases xs <;> simp [mergeTwo]

lemma mergeLoop_spec [Inhabited T] (less : T → T → Bool) (temp : List T) {mid : ℕ}
    (hm : mid ≤ temp.length) :
    ∀ i j k d, i ≤ mid → mid ≤ j → j ≤ temp.length → k + mid = i + j →
      d.length = temp.length → d.drop k = temp.drop k →
      ∃ i2 j2 k2 d2, mergeLoop less temp mid i j k d = (i2, j2, k2, d2) ∧
        i2 ≤ mid ∧ mid ≤ j2 ∧ j2 ≤ temp.length ∧ k2 + mid = i2 + j2 ∧
        d2.length = temp.length ∧ d2.drop k2 = temp.drop k2 ∧
        (i2 = mid ∨ j2 = temp.length) ∧
        d2.take k2 ++ mergeTwo less ((temp.take mid).drop i2) (temp.drop j2)
          = d.take k ++ mergeTwo less ((temp.take mid).drop i) (temp.drop j) := by
  intro i j k d
  induction i, j, k, d using mergeLoop.induct less temp mid with
  | case1 i j k d hij hless ih =>
    intro hi hj hjn hk hdl hdd
    have hkd : k < d.length := by omega
    obtain ⟨i2, j2, k2, d2, hEq, p1, p2, p3, p4, p5, p6, p7, p8⟩ :=
      ih (by omega) hj hjn (by omega) (by simp [hdl])
        (by rw [set_drop_of_lt d _ (by omega)]; exact drop_succ_of_drop_eq hdd)
    refine ⟨i2, j2, k2, d2, ?_, p1, p2, p3, p4, p5, p6, p7, ?_⟩
    · rw [mergeLoop, dif_pos hij, if_pos hless]
      exact hEq
    · rw [p8]
      rw [set_take_succ d _ hkd]
      rw [getD_take_of_lt temp hij.1 hm]
      rw [drop_eq_getD_cons temp hij.2]
      simp [mergeTwo, List.append_assoc]
      rw [List.getD_eq_getElem?_getD, List.getD_eq_getElem?_getD] at hless
      exact (if_pos hless).symm
  | case2 i j k d hij hless ih =>
    intro hi hj hjn hk hdl hdd
    have hkd : k < d.length := by omega
    have hlf : less (temp.getD i default) (temp.getD j default) = false := by
      simpa using hless
    obtain ⟨i2, j2, k2, d2, hEq, p1, p2, p3, p4, p5, p6, p7, p8⟩ :=
      ih (by omega) (by omega) (by omega) (by omega) (by simp [hdl])
        (by rw [set_drop_of_lt d _ (by omega)]; exact drop_succ_of_drop_eq hdd)
    refine ⟨i2, j2, k2, d2, ?_, p1, p2, p3, p4, p5, p6, p7, ?_⟩
    · rw [mergeLoop, dif_pos hij, if_neg hless]
      exact hEq
    · rw [p8]
      rw [set_take_succ d _ hkd]
      rw [getD_take_of_lt temp hij.1 hm]
      rw [drop_eq_getD_cons temp hij.2]
      simp [mergeTwo, List.append_assoc]
      rw [List.getD_eq_getElem?_getD, List.getD_eq_getElem?_getD] at hless
      exact (if_neg hless).symm
  | case3 i j k d hij =>
    intro hi hj hjn hk hdl hdd
    refine ⟨i, j, k, d, ?_, hi, hj, hjn, hk, hdl, hdd, by omega, rfl⟩
    rw [mergeLoop, dif_neg hij]

/-- The in-place `merge` computes exactly the functional two-way merge of
the two halves `data[:mid]` and `data[mid:]`. -/
lemma merge_eq_mergeTwo [Inhabited T] (less : T → T → Bool) (data : List T) {mid : ℕ}
    (hm : mid ≤ data.length) :
    merge less data mid = mergeTwo less (data.take mid) (data.drop mid) := by
  obtain ⟨i2, j2, k2, d2, hEq, p1, p2, p3, p4, p5, p6, p7, p8⟩ :=
    mergeLoop_spec less data hm 0 mid 0 data (by omega) (le_refl _) hm (by omega) rfl rfl
  simp only [merge]
  rw [hEq]
  simp only [List.take_zero, List.drop_zero, List.nil_append] at p8
  rcases p7 with hcase | hcase
  · have hbound : mid ≤ i2 := by omega
    rw [copyLoop_at_bound data hbound]
    have hsl : (data.take mid).drop i2 = [] := by
      apply List.drop_eq_nil_of_le
      rw [List.length_take]
      omega
    rw [hsl] at p8
    simp only [mergeTwo] at p8
    have hk2 : k2 = j2 := by omega
    calc d2 = d2.take k2 ++ d2.drop k2 := (List.take_append_drop _ _).symm
    _ = d2.take k2 ++ data.drop j2 := by rw [p6, hk2]
    _ = mergeTwo less (data.take mid) (data.drop mid) := p8
  · subst hcase
    rw [copyLoop_spec data hm i2 k2 d2 p1 p5 (by omega)]
    have h1 : k2 + (mid - i2) = d2.length := by omega
    rw [List.drop_take] at p8
    rw [h1, List.drop_length]
    rw [List.drop_length, mergeTwo_nil_right] at p8
    simpa using p8

/-- After the two-cursor loop ends with the left side exhausted, the output
cursor equals the right cursor and the unwritten tail already holds the
remaining right-half elements, so the reference merge's right-side
remainder copy writes back values that are already in place. -/
lemma mergeRef_eq_merge_aux [Inhabited T] (less : T → T → Bool) (data : List T) {mid : ℕ}
    (hm : mid ≤ data.length) :
    mergeRef less data mid = merge less data mid := by
  obtain ⟨i2, j2, k2, d2, hEq, p1, p2, p3, p4, p5, p6, p7, p8⟩ :=
    mergeLoop_spec less data hm 0 mid 0 data (by omega) (le_refl _) hm (by omega) rfl rfl
  simp only [merge, mergeRef]
  rw [hEq]
  rcases p7 with hcase | hcase
  · have hbound : mid ≤ i2 := by omega
    rw [copyLoop_at_bound data hbound]
    rw [copyLoop_spec data (le_refl _) j2 k2 d2 p3 p5 (by omega)]
    have h1 : k2 + (data.length - j2) = d2.length := by omega
    have h2 : (data.drop j2).take (data.length - j2) = data.drop j2 := by
      apply List.take_of_length_le
      rw [List.length_drop]
    rw [h1, List.drop_length, h2]
    have hk2 : k2 = j2 := by omega
    rw [hk2] at p6
    rw [hk2, ← p6]
    simp [List.take_append_drop]
  · have hbound : data.length ≤ j2 := by omega
    rcases hcl : copyLoop data mid i2 k2 d2 with ⟨k3, d3⟩
    show (copyLoop data data.length j2 k3 d3).2 = d3
    rw [copyLoop_at_bound data hbound]

/-! ### Permutation and sortedness -/

lemma mergeTwo_cons_cons_pos (less : T → T → Bool) {x y : T} (xs ys : List T)
    (h : less x y = true) :
    mergeTwo less (x :: xs) (y :: ys) = x :: mergeTwo less xs (y :: ys) := by
  simp [mergeTwo, h]

lemma mergeTwo_cons_cons_neg (less : T → T → Bool) {x y : T} (xs ys : List T)
    (h : less x y = false) :
    mergeTwo less (x :: xs) (y :: ys) = y :: mergeTwo less (x :: xs) ys := by
  simp [mergeTwo, h]

lemma mergeTwo_perm (less : T → T → Bool) :
    ∀ xs ys : List T, (mergeTwo less xs ys).Perm (xs ++ ys) := by
  intro xs ys
  induction xs, ys using mergeTwo.induct less with
  | case1 ys => simp [mergeTwo]
  | case2 x xs => simp [mergeTwo]
  | case3 x xs y ys hl ih =>
    rw [mergeTwo_cons_cons_pos less xs ys hl]
    exact ih.cons x
  | case4 x xs y ys hl ih =>
    have hf : less x y = false := by simpa using hl
    rw [mergeTwo_cons_cons_neg less xs ys hf]
    exact List.Perm.trans (ih.cons y) List.perm_middle.symm

lemma mergeTwo_pairwise (less : T → T → Bool) (hA : AsymLess less)
    (hT : TransNotLess less) :
    ∀ xs ys : List T, List.Pairwise (fun a b => less b a = false) xs →
      List.Pairwise (fun a b => less b a = false) ys →
      List.Pairwise (fun a b => less b a = false) (mergeTwo less xs ys) := by
  intro xs ys
  induction xs, ys using mergeTwo.induct less with
  | case1 ys =>
    intro _ h
    simpa [mergeTwo] using h
  | case2 x xs =>
    intro h _
    simpa [mergeTwo] using h
  | case3 x xs y ys hl ih =>
    intro hx hy
    rw [mergeTwo_cons_cons_pos less xs ys hl]
    rw [List.pairwise_cons] at hx ⊢
    refine ⟨?_, ih hx.2 hy⟩
    intro a ha
    have hmem : a ∈ xs ++ (y :: ys) := (mergeTwo_perm less xs (y :: ys)).mem_iff.mp ha
    rcases List.mem_append.mp hmem with h1 | h1
    · exact hx.1 a h1
    · rcases List.mem_cons.mp h1 with rfl | h2
      · exact hA x a hl
      · have h3 : less a y = false := (List.pairwise_cons.mp hy).1 a h2
        exact hT x y a (hA x y hl) h3
  | case4 x xs y ys hl ih =>
    intro hx hy
    have hf : less x y = false := by simpa using hl
    rw [mergeTwo_cons_cons_neg less xs ys hf]
    rw [List.pairwise_cons] at hy ⊢
    refine ⟨?_, ih hx hy.2⟩
    intro a ha
    have hmem : a ∈ (x :: xs) ++ ys := (mergeTwo_perm less (x :: xs) ys).mem_iff.mp ha
    rcases List.mem_append.mp hmem with h1 | h1
    · rcases List.mem_cons.mp h1 with rfl | h2
      · exact hf
      · have h3 : less a x = false := (List.pairwise_cons.mp hx).1 a h2
        exact hT y x a hf h3
    · exact hy.1 a h1

lemma IsSorted_iff_chain (less : T → T → Bool) :
    ∀ l : List T, IsSorted less l = true ↔
      List.Chain' (fun a b => less b a = false) l := by
  intro l
  induction l with
  | nil => simp [IsSorted]
  | cons a l ih =>
    cases l with
    | nil => simp [IsSorted]
    | cons b m =>
      by_cases h : less b a = true
      · simp [IsSorted, h, List.chain'_cons]
      · have hf : less b a = false := by simpa using h
        simp [IsSorted, hf, List.chain'_cons, ih]

lemma IsSorted_iff_pairwise (less : T → T → Bool) (hT : TransNotLess less)
    (l : List T) :
    IsSorted less l = true ↔ List.Pairwise (fun a b => less b a = false) l := by
  rw [IsSorted_iff_chain]
  haveI : IsTrans T (fun a b => less b a = false) := ⟨fun a b c h1 h2 => hT a b c h1 h2⟩
  exact List.chain'_iff_pairwise

lemma SortBy_perm (less : T → T → Bool) (l : List T) : (SortBy less l).Perm l :=
  List.perm_insertionSort _ l

lemma SortBy_pairwise (less : T → T → Bool) (hA : AsymLess less)
    (hT : TransNotLess less) (l : List T) :
    List.Pairwise (fun a b => less b a = false) (SortBy less l) := by
  haveI : IsTotal T (fun a b : T => less b a = false) := by
    refine ⟨fun a b => ?_⟩
    by_cases h : less b a = true
    · exact Or.inr (hA b a h)
    · exact Or.inl (by simpa using h)
  haveI : IsTrans T (fun a b : T => less b a = false) := ⟨fun a b c h1 h2 => hT a b c h1 h2⟩
  exact List.sorted_insertionSort _ l

lemma pairwise_of_short {r : T → T → Prop} (l : List T) (h : l.length < 2) :
    List.Pairwise r l := by
  rcases l with _ | ⟨a, _ | ⟨b, u⟩⟩
  · exact List.Pairwise.nil
  · simp
  · exfalso
    simp only [List.length_cons] at h
    omega

lemma ParallelSort_perm [Inhabited T] (less : T → T → Bool) (p : Int)
    (data : List T) : (ParallelSort less p data).Perm data := by
  induction p, data using ParallelSort.induct (T := T) less with
  | case1 p data h =>
    rw [ParallelSort, dif_pos h]
  | case2 p data h1 h2 =>
    rw [ParallelSort, dif_neg h1, dif_pos h2]
    exact SortBy_perm less data
  | case3 p data h1 h2 ihL ihR =>
    rw [ParallelSort, dif_neg h1, dif_neg h2]
    have hLlen : (ParallelSort less (p / 2) (data.take (data.length / 2))).length
        = data.length / 2 := by
      rw [ihL.length_eq, List.length_take]
      omega
    have hmle : data.length / 2 ≤
        (ParallelSort less (p / 2) (data.take (data.length / 2)) ++
          ParallelSort less (p / 2) (data.drop (data.length / 2))).length := by
      rw [List.length_append, hLlen]
      omega
    rw [merge_eq_mergeTwo less _ hmle, List.take_left' hLlen, List.drop_left' hLlen]
    refine List.Perm.trans (mergeTwo_perm less _ _) ?_
    refine List.Perm.trans (ihL.append ihR) ?_
    rw [List.take_append_drop]

lemma ParallelSort_pairwise [Inhabited T] (less : T → T → Bool) (hA : AsymLess less)
    (hT : TransNotLess less) (p : Int) (data : List T) :
    List.Pairwise (fun a b => less b a = false) (ParallelSort less p data) := by
  induction p, data using ParallelSort.induct (T := T) less with
  | case1 p data h =>
    rw [ParallelSort, dif_pos h]
    exact pairwise_of_short data h
  | case2 p data h1 h2 =>
    rw [ParallelSort, dif_neg h1, dif_pos h2]
    exact SortBy_pairwise less hA hT data
  | case3 p data h1 h2 ihL ihR =>
    rw [ParallelSort, dif_neg h1, dif_neg h2]
    have hLlen : (ParallelSort less (p / 2) (data.take (data.length / 2))).length
        = data.length / 2 := by
      rw [(ParallelSort_perm less _ _).length_eq, List.length_take]
      omega
    have hmle : data.length / 2 ≤
        (ParallelSort less (p / 2) (data.take (data.length / 2)) ++
          ParallelSort less (p / 2) (data.drop (data.length / 2))).length := by
      rw [List.length_append, hLlen]
      omega
    rw [merge_eq_mergeTwo less _ hmle, List.take_left' hLlen, List.drop_left' hLlen]
    exact mergeTwo_pairwise less hA hT _ _ ihL ihR

/-! ### The everywhere-false comparator -/

lemma orderedInsert_all (r : T → T → Prop) [DecidableRel r] (h : ∀ a b, r a b)
    (a : T) (l : List T) : l.orderedInsert r a = a :: l := by
  cases l with
  | nil => rfl
  | cons b t => simp [List.orderedInsert, h a b]

lemma insertionSort_all (r : T → T → Prop) [DecidableRel r] (h : ∀ a b, r a b)
    (l : List T) : List.insertionSort r l = l := by
  induction l with
  | nil => rfl
  | cons a t ih => simp [List.insertionSort, ih, orderedInsert_all r h a t]

lemma SortBy_constFalse (l : List T) : SortBy (fun _ _ => false) l = l :=
  insertionSort_all _ (fun _ _ => rfl) l

lemma mergeTwo_constFalse : ∀ xs ys : List T,
    mergeTwo (fun _ _ => false) xs ys = ys ++ xs := by
  intro xs ys
  induction xs, ys using mergeTwo.induct (fun _ _ => false) with
  | case1 ys => simp [mergeTwo]
  | case2 x xs => simp [mergeTwo]
  | case3 x xs y ys hl ih => simp at hl
  | case4 x xs y ys hl ih =>
    rw [mergeTwo_cons_cons_neg _ xs ys rfl, ih]
    rfl

lemma IsSorted_constFalse (l : List T) : IsSorted (fun _ _ => false) l = true := by
  induction l with
  | nil => rfl
  | cons a t ih =>
    cases t with
    | nil => rfl
    | cons b m => simpa [IsSorted] using ih

lemma tiedList_length : tiedList.length = 1000 := by
  rw [tiedList, List.length_append, List.length_replicate, List.length_replicate]

lemma ParallelSort_lessF_one : ParallelSort lessF 1 tiedList = tiedList := by
  rw [ParallelSort, dif_neg (by rw [tiedList_length]; omega),
    dif_pos (Or.inl (by omega))]
  exact SortBy_constFalse tiedList

lemma ParallelSort_lessF_replicate (n : ℕ) (b : Bool) :
    ParallelSort lessF 1 (List.replicate n b) = List.replicate n b := by
  by_cases h : (List.replicate n b).length < 2
  · rw [ParallelSort, dif_pos h]
  · rw [ParallelSort, dif_neg h, dif_pos (Or.inl (by omega))]
    exact SortBy_constFalse _

lemma ParallelSort_lessF_two :
    ParallelSort lessF 2 tiedList
      = List.replicate 500 true ++ List.replicate 500 false := by
  rw [ParallelSort, dif_neg (by rw [tiedList_length]; omega),
    dif_neg (by rw [tiedList_length]; omega)]
  rw [tiedList_length]
  norm_num
  rw [show srt.tiedList.take 500 = List.replicate 500 false by
    rw [tiedList]; exact List.take_left' (List.length_replicate 500 false)]
  rw [show srt.tiedList.drop 500 = List.replicate 500 true by
    rw [tiedList]; exact List.drop_left' (List.length_replicate 500 false)]
  rw [ParallelSort_lessF_replicate, ParallelSort_lessF_replicate]
  rw [merge_eq_mergeTwo lessF _ (by
    rw [List.length_append, List.length_replicate, List.length_replicate]
    omega)]
  rw [List.take_left' (List.length_replicate 500 false),
    List.drop_left' (List.length_replicate 500 false)]
  exact mergeTwo_constFalse _ _

/-! ### Uniqueness of the sorted permutation -/

lemma sorted_perm_unique (less : T → T → Bool) (hAnti : AntisymNotLess less)
    {l₁ l₂ : List T} (hp : l₁.Perm l₂)
    (h₁ : List.Pairwise (fun a b => less b a = false) l₁)
    (h₂ : List.Pairwise (fun a b => less b a = false) l₂) : l₁ = l₂ := by
  haveI : IsAntisymm T (fun a b => less b a = false) :=
    ⟨fun a b hab hba => hAnti a b hba hab⟩
  exact List.eq_of_perm_of_sorted hp h₁ h₂

/-! ### The checked interpreters agree with the loops -/

lemma mergeLoopC_eq [Inhabited T] (less : T → T → Bool) (temp : List T) (mid : ℕ)
    (hm : mid ≤ temp.length) :
    ∀ fuel i j k d, i ≤ mid → mid ≤ j → j ≤ temp.length → k + mid = i + j →
      d.length = temp.length → (mid - i) + (temp.length - j) < fuel →
      mergeLoopC less temp mid fuel i j k d = some (mergeLoop less temp mid i j k d) := by
  intro fuel
  induction fuel with
  | zero =>
    intro i j k d _ _ _ _ _ hf
    omega
  | succ fuel ih =>
    intro i j k d hi hj hjn hk hdl hf
    by_cases hij : i < mid ∧ j < temp.length
    · have hb : i < temp.length ∧ j < temp.length ∧ k < d.length :=
        ⟨by omega, hij.2, by omega⟩
      rw [mergeLoopC, if_pos hij, if_pos hb, mergeLoop, dif_pos hij]
      by_cases hl : less (temp.getD i default) (temp.getD j default) = true
      · rw [if_pos hl, if_pos hl]
        exact ih (i + 1) j (k + 1) _ (by omega) hj hjn (by omega)
          (by simp [hdl]) (by omega)
      · rw [if_neg hl, if_neg hl]
        exact ih i (j + 1) (k + 1) _ hi (by omega) (by omega) (by omega)
          (by simp [hdl]) (by omega)
    · rw [mergeLoopC, if_neg hij, mergeLoop, dif_neg hij]

lemma copyLoopC_eq [Inhabited T] (temp : List T) {bound : ℕ} (hb : bound ≤ temp.length) :
    ∀ fuel src k d, src ≤ bound → d.length = temp.length →
      k + (bound - src) ≤ d.length → bound - src < fuel →
      copyLoopC temp bound fuel src k d = some (copyLoop temp bound src k d) := by
  intro fuel
  induction fuel with
  | zero =>
    intro src k d _ _ _ hf
    omega
  | succ fuel ih =>
    intro src k d hsb hdl hkb hf
    by_cases hs : src < bound
    · have hbk : src < temp.length ∧ k < d.length := ⟨by omega, by omega⟩
      rw [copyLoopC, if_pos hs, if_pos hbk, copyLoop, dif_pos hs]
      exact ih (src + 1) (k + 1) _ (by omega)
        (by simp [hdl]) (by simp [List.length_set]; omega) (by omega)
    · rw [copyLoopC, if_neg hs, copyLoop, dif_neg hs]

lemma mergeChecked_eq [Inhabited T] (less : T → T → Bool) (data : List T) {mid : ℕ}
    (hm : mid ≤ data.length) :
    mergeChecked less data mid = some (merge less data mid) := by
  obtain ⟨i2, j2, k2, d2, hEq, p1, p2, p3, p4, p5, p6, p7, p8⟩ :=
    mergeLoop_spec less data hm 0 mid 0 data (by omega) (le_refl _) hm (by omega) rfl rfl
  have h1 : mergeLoopC less data mid (data.length + 1) 0 mid 0 data
      = some (mergeLoop less data mid 0 mid 0 data) :=
    mergeLoopC_eq less data mid hm _ 0 mid 0 data (by omega) (le_refl _) hm
      (by omega) rfl (by omega)
  rw [mergeChecked, h1, hEq, Option.some_bind]
  show (copyLoopC data mid (data.length + 1) i2 k2 d2).map (fun r => r.2)
      = some (merge less data mid)
  rw [copyLoopC_eq data hm _ i2 k2 d2 p1 p5 (by omega) (by omega)]
  rw [Option.map_some']
  simp only [merge]
  rw [hEq]

lemma ParallelSortFuel_eq [Inhabited T] (less : T → T → Bool) :
    ∀ (fuel : ℕ) (p : Int) (data : List T), data.length < fuel →
      ParallelSortFuel less fuel p data = some (ParallelSort less p data) := by
  intro fuel
  induction fuel with
  | zero =>
    intro p data h
    omega
  | succ fuel ih =>
    intro p data h
    rw [ParallelSortFuel, ParallelSort]
    by_cases h1 : data.length < 2
    · rw [if_pos h1, dif_pos h1]
    · rw [if_neg h1, dif_neg h1]
      by_cases h2 : p ≤ 1 ∨ data.length < 1000
      · rw [if_pos h2, dif_pos h2]
      · rw [if_neg h2, dif_neg h2]
        rw [ih (p / 2) (data.take (data.length / 2)) (by rw [List.length_take]; omega)]
        rw [Option.some_bind]
        rw [ih (p / 2) (data.drop (data.length / 2)) (by rw [List.length_drop]; omega)]
        rw [Option.some_bind]

lemma head_replicate_append (n : ℕ) (b : Bool) (l : List Bool) (hn : 0 < n) :
    (List.replicate n b ++ l).head? = some b := by
  cases n with
  | zero => omega
  | succ m =>
    rw [List.replicate_succ]
    rfl

/-- A small concrete strict comparator used to instantiate theorems. -/
abbrev lessFin : Fin 3 → Fin 3 → Bool := fun a b => decide (a < b)

/-! ### Claim theorems -/

/-- C1: for every finite sequence and every consistent (strict-weak-ordering)
comparator, after `ParallelSort` the sequence is sorted end-to-end: for every
adjacent pair of positions, `less` of the later element against the earlier
one is `false` (stated via the package's own `IsSorted` scan). -/
theorem claim1_parallelSort_sorted [Inhabited T] (less : T → T → Bool)
    (hA : AsymLess less) (hT : TransNotLess less) (p : Int) (data : List T) :
    IsSorted less (ParallelSort less p data) = true := by
  rw [IsSorted_iff_pairwise less hT]
  exact ParallelSort_pairwise less hA hT p data

theorem claim1_witness :
    AsymLess lessFin ∧ TransNotLess lessFin ∧
      IsSorted lessFin (ParallelSort lessFin 4 [2, 0, 1]) = true :=
  ⟨by decide, by decide,
    claim1_parallelSort_sorted lessFin (by decide) (by decide) 4 [2, 0, 1]⟩

/-- C2: for every input sequence, comparator and parallelism value, the
result of `ParallelSort` is a permutation of the input (same multiset: no
element added, removed, or duplicated). -/
theorem claim2_parallelSort_perm [Inhabited T] (less : T → T → Bool) (p : Int)
    (data : List T) : (ParallelSort less p data).Perm data :=
  ParallelSort_perm less p data

/-- C3 counterexample: the claim says the LEFT front element is placed first
on a tie, but on `[false, true]` with the everywhere-false comparator (both
fronts tie) the merge emits the RIGHT front `true` first. -/
theorem claim3_counterexample :
    lessF false true = false ∧ lessF true false = false ∧
      merge lessF [false, true] 1 = [true, false] := by
  refine ⟨rfl, rfl, ?_⟩
  rw [merge_eq_mergeTwo lessF [false, true] (by simp)]
  show mergeTwo (fun _ _ => false) [false] [true] = [true, false]
  exact mergeTwo_constFalse [false] [true]

/-- C3 (amended): in the merge step, when neither `less(left, right)` nor
`less(right, left)` holds for the two front elements, the RIGHT front
element is placed into the output first (at position 0). -/
theorem claim3_amended_right_first [Inhabited T] (less : T → T → Bool)
    (data : List T) {mid : ℕ} (h0 : 0 < mid) (hmid : mid < data.length)
    (htie1 : less (data.getD 0 default) (data.getD mid default) = false)
    (htie2 : less (data.getD mid default) (data.getD 0 default) = false) :
    (merge less data mid).getD 0 default = data.getD mid default := by
  rw [merge_eq_mergeTwo less data (le_of_lt hmid)]
  have ht : data.take mid = data.getD 0 default :: (data.take mid).drop 1 := by
    have h := getD_take_of_lt data (i := 0) h0 (le_of_lt hmid)
    simpa using h
  have hd : data.drop mid = data.getD mid default :: data.drop (mid + 1) :=
    drop_eq_getD_cons data hmid
  rw [ht, hd, mergeTwo_cons_cons_neg less _ _ htie1]
  rfl

theorem claim3_witness :
    (0 : ℕ) < 1 ∧ 1 < [false, true].length ∧
      lessF ([false, true].getD 0 default) ([false, true].getD 1 default) = false ∧
      (merge lessF [false, true] 1).getD 0 default = [false, true].getD 1 default :=
  ⟨by decide, by decide, by decide,
    claim3_amended_right_first lessF [false, true] (by decide) (by decide)
      (by decide) (by decide)⟩

/-- C4 counterexample: `tiedList` (500 `false`s then 500 `true`s) is sorted
under the consistent everywhere-false comparator, yet `ParallelSort` with
parallelism 2 moves its elements (the merge's right-preference on ties swaps
the two halves), so sorting an already-sorted sequence is NOT positionally
invariant. -/
theorem claim4_counterexample :
    AsymLess lessF ∧ TransNotLess lessF ∧ IsSorted lessF tiedList = true ∧
      ParallelSort lessF 2 tiedList ≠ tiedList := by
  refine ⟨by decide, by decide, IsSorted_constFalse tiedList, ?_⟩
  rw [ParallelSort_lessF_two, tiedList]
  intro h
  have h2 := congrArg List.head? h
  rw [head_replicate_append 500 true (List.replicate 500 false) (by omega),
    head_replicate_append 500 false (List.replicate 500 true) (by omega)] at h2
  simp at h2

/-- C4 (amended): if the consistent comparator additionally never ties two
distinct elements, then `ParallelSort` leaves an already-sorted sequence
unchanged position by position, for every parallelism value.  (With ties the
contents are still the same multiset, by C2, but positions of tied elements
can change.) -/
theorem claim4_amended_idempotent [Inhabited T] (less : T → T → Bool)
    (hA : AsymLess less) (hT : TransNotLess less) (hAnti : AntisymNotLess less)
    (p : Int) (data : List T) (hs : IsSorted less data = true) :
    ParallelSort less p data = data := by
  apply sorted_perm_unique less hAnti (ParallelSort_perm less p data)
  · exact ParallelSort_pairwise less hA hT p data
  · exact (IsSorted_iff_pairwise less hT data).mp hs

theorem claim4_witness :
    AsymLess lessFin ∧ TransNotLess lessFin ∧ AntisymNotLess lessFin ∧
      IsSorted lessFin [0, 1, 2] = true ∧
      ParallelSort lessFin 2 [0, 1, 2] = [0, 1, 2] :=
  ⟨by decide, by decide, by decide, by decide,
    claim4_amended_idempotent lessFin (by decide) (by decide) (by decide) 2
      [0, 1, 2] (by decide)⟩

/-- C5 counterexample: with the consistent everywhere-false comparator on
`tiedList`, parallelism 1 (sequential path) and parallelism 2 (merge path)
produce different sequences, so the final contents are NOT identical for
every parallelism value. -/
theorem claim5_counterexample :
    AsymLess lessF ∧ TransNotLess lessF ∧
      ParallelSort lessF 1 tiedList ≠ ParallelSort lessF 2 tiedList := by
  refine ⟨by decide, by decide, ?_⟩
  rw [ParallelSort_lessF_one, ParallelSort_lessF_two, tiedList]
  intro h
  have h2 := congrArg List.head? h
  rw [head_replicate_append 500 false (List.replicate 500 true) (by omega),
    head_replicate_append 500 true (List.replicate 500 false) (by omega)] at h2
  simp at h2

/-- C5 (amended): for any two parallelism values the results are always
permutations of each other (same content as a multiset), and they are the
identical sequence whenever the consistent comparator never ties two
distinct elements. -/
theorem claim5_amended_parallelism_independent [Inhabited T] (less : T → T → Bool)
    (hA : AsymLess less) (hT : TransNotLess less) (p₁ p₂ : Int) (data : List T) :
    (ParallelSort less p₁ data).Perm (ParallelSort less p₂ data) ∧
      (AntisymNotLess less →
        ParallelSort less p₁ data = ParallelSort less p₂ data) := by
  have hperm : (ParallelSort less p₁ data).Perm (ParallelSort less p₂ data) :=
    (ParallelSort_perm less p₁ data).trans (ParallelSort_perm less p₂ data).symm
  refine ⟨hperm, fun hAnti => ?_⟩
  exact sorted_perm_unique less hAnti hperm
    (ParallelSort_pairwise less hA hT p₁ data)
    (ParallelSort_pairwise less hA hT p₂ data)

theorem claim5_witness :
    AsymLess lessFin ∧ TransNotLess lessFin ∧
      ((ParallelSort lessFin 1 [1, 0, 2]).Perm (ParallelSort lessFin 8 [1, 0, 2]) ∧
        (AntisymNotLess lessFin →
          ParallelSort lessFin 1 [1, 0, 2] = ParallelSort lessFin 8 [1, 0, 2])) :=
  ⟨by decide, by decide,
    claim5_amended_parallelism_independent lessFin (by decide) (by decide) 1 8
      [1, 0, 2]⟩

/-- C6: for every comparator, even an inconsistent one, the bounds-checked
fuelled interpreters of `merge` and `ParallelSort` succeed (no out-of-bounds
access, every loop terminates, no crash) and agree with the unchecked
functions, and `ParallelSort` preserves the length of the sequence. -/
theorem claim6_merge_safe [Inhabited T] (less : T → T → Bool) (p : Int)
    (data : List T) {mid : ℕ} (hm : mid ≤ data.length) :
    mergeChecked less data mid = some (merge less data mid) ∧
      ParallelSortFuel less (data.length + 1) p data
        = some (ParallelSort less p data) ∧
      (ParallelSort less p data).length = data.length :=
  ⟨mergeChecked_eq less data hm,
    ParallelSortFuel_eq less (data.length + 1) p data (by omega),
    (ParallelSort_perm less p data).length_eq⟩

theorem claim6_witness :
    1 ≤ [true, false].length ∧
      (mergeChecked (fun _ _ => true) [true, false] 1
          = some (merge (fun _ _ => true) [true, false] 1) ∧
        ParallelSortFuel (fun _ _ => true) ([true, false].length + 1) 0 [true, false]
          = some (ParallelSort (fun _ _ => true) 0 [true, false]) ∧
        (ParallelSort (fun _ _ => true) 0 [true, false]).length
          = [true, false].length) :=
  ⟨by decide, claim6_merge_safe (fun _ _ => true) 0 [true, false] (by decide)⟩

/-- C7: for every comparator and every integer `N` (including 0 and negative
values), `ParallelSort` on the empty sequence and on a one-element sequence
returns the sequence unchanged. -/
theorem claim7_small_inputs [Inhabited T] (less : T → T → Bool) (N : Int) (x : T) :
    ParallelSort less N ([] : List T) = [] ∧ ParallelSort less N [x] = [x] := by
  constructor
  · rw [ParallelSort, dif_pos (by simp)]
  · rw [ParallelSort, dif_pos (by simp)]

/-- C8: `ParallelSort` terminates on every input: the fuelled interpreter
with fuel exceeding the sequence length (each recursive call is on a
strictly shorter half) already reaches the answer, and the parallelism
budget strictly decreases toward 1 by integer halving. -/
theorem claim8_terminates [Inhabited T] (less : T → T → Bool) (fuel : ℕ) (p : Int)
    (data : List T) (hfuel : data.length < fuel) :
    ParallelSortFuel less fuel p data = some (ParallelSort less p data) ∧
      (2 ≤ p → p / 2 < p ∧ 1 ≤ p / 2) :=
  ⟨ParallelSortFuel_eq less fuel p data hfuel, fun _ => by omega⟩

theorem claim8_witness :
    ([1, 0] : List (Fin 3)).length < 3 ∧
      (ParallelSortFuel lessFin 3 2 [1, 0] = some (ParallelSort lessFin 2 [1, 0]) ∧
        (2 ≤ (2 : Int) → (2 : Int) / 2 < 2 ∧ 1 ≤ (2 : Int) / 2)) :=
  ⟨by decide, claim8_terminates lessFin 3 2 [1, 0] (by decide)⟩

/-- C9: for every `mid ≤ len(data)` and every comparator, the source's
`merge` (which copies only the left-side remainder after the two-cursor
loop) produces exactly the same final contents as the reference merge that
also copies the right-side remainder. -/
theorem claim9_mergeRef_eq [Inhabited T] (less : T → T → Bool) (data : List T)
    {mid : ℕ} (hm : mid ≤ data.length) :
    mergeRef less data mid = merge less data mid :=
  mergeRef_eq_merge_aux less data hm

theorem claim9_witness :
    1 ≤ ([1, 0] : List (Fin 3)).length ∧
      mergeRef lessFin [1, 0] 1 = merge lessFin [1, 0] 1 :=
  ⟨by decide, claim9_mergeRef_eq lessFin [1, 0] (by decide)⟩

/-- C10: on the concurrent path, `ParallelSort` decomposes into sorting the
two complementary, disjoint index ranges `data[:mid]` and `data[mid:]`
(each branch a function of its own half only), whose results are both
consumed by the merge only after both sorts are complete. -/
theorem claim10_disjoint_forkjoin [Inhabited T] (less : T → T → Bool) (p : Int)
    (data : List T) (hp : 2 ≤ p) (hlen : 1000 ≤ data.length) :
    (data.take (data.length / 2)).length = data.length / 2 ∧
      (data.drop (data.length / 2)).length = data.length - data.length / 2 ∧
      data.take (data.length / 2) ++ data.drop (data.length / 2) = data ∧
      ParallelSort less p data
        = merge less
            (ParallelSort less (p / 2) (data.take (data.length / 2)) ++
              ParallelSort less (p / 2) (data.drop (data.length / 2)))
            (data.length / 2) := by
  refine ⟨by rw [List.length_take]; omega, by rw [List.length_drop],
    List.take_append_drop _ _, ?_⟩
  rw [ParallelSort, dif_neg (by omega), dif_neg (by omega)]

theorem claim10_witness :
    2 ≤ (2 : Int) ∧ 1000 ≤ (List.replicate 1000 true).length ∧
      (((List.replicate 1000 true).take ((List.replicate 1000 true).length / 2)).length
          = (List.replicate 1000 true).length / 2 ∧
        ((List.replicate 1000 true).drop ((List.replicate 1000 true).length / 2)).length
          = (List.replicate 1000 true).length - (List.replicate 1000 true).length / 2 ∧
        (List.replicate 1000 true).take ((List.replicate 1000 true).length / 2) ++
            (List.replicate 1000 true).drop ((List.replicate 1000 true).length / 2)
          = List.replicate 1000 true ∧
        ParallelSort lessF 2 (List.replicate 1000 true)
          = merge lessF
              (ParallelSort lessF (2 / 2)
                  ((List.replicate 1000 true).take ((List.replicate 1000 true).length / 2)) ++
                ParallelSort lessF (2 / 2)
                  ((List.replicate 1000 true).drop ((List.replicate 1000 true).length / 2)))
              ((List.replicate 1000 true).length / 2)) :=
  ⟨by omega, by rw [List.length_replicate],
    claim10_disjoint_forkjoin lessF 2 (List.replicate 1000 true) (by omega)
      (by rw [List.length_replicate])⟩

end srt
